import Mathlib

/-!
Shallow embedding of the core of `oi.h` (scanner / verdict / random library
for grading tools), together with theorems checking the natural-language
specification against the code.

Bytes read from the stream are modelled as `Int` values (`getc` returns an
`int` in `0..255`, or `EOF = -1`).  Machine-integer overflow checks are
modelled by explicit range tests on mathematical integers.  Every operation
that can terminate the process through an error channel returns
`Except ScanError _` instead.
-/

namespace OI

/-- C `isspace` in the C locale: space, \t, \n, \v, \f, \r. -/
def isspace (c : Int) : Bool :=
  c == 32 || c == 9 || c == 10 || c == 11 || c == 12 || c == 13

/-- C `isdigit`. -/
def isdigit (c : Int) : Bool :=
  decide (48 ≤ c) && decide (c ≤ 57)

/-- C `isgraph`: printable other than space. -/
def isgraph (c : Int) : Bool :=
  decide (33 ≤ c) && decide (c ≤ 126)

/-- `oi::Lang`. -/
inductive Lang where
  | EN
  | PL
deriving DecidableEq, Repr

/-- `oi::Scanner::Mode`. -/
inductive Mode where
  | UserOutput
  | Lax
  | TestInput
deriving DecidableEq, Repr

/-- `oi::Scanner::Pos` (1-indexed line / position-in-line). -/
structure Pos where
  line : Nat
  pos : Nat
deriving DecidableEq, Repr

/-- `oi::Scanner::DelayedUnreadChars`. -/
inductive DelayedUnreadChars where
  | WHITESPACE
  | NEWLINE
deriving DecidableEq, Repr

/-- The mutable state of an `oi::Scanner`.  The `FILE*` stream is modelled by
`remaining`, the list of bytes `getc` has not yet returned.  `consumed` is a
ghost trace of the values returned by `getchar` (bytes, or `-1` for an EOF
read), net of `ungetchar`; it influences no behaviour and exists only to state
position theorems. -/
structure Scanner where
  remaining : List Nat
  mode : Mode
  lang : Lang
  next_char_pos : Pos := ⟨1, 1⟩
  last_char_pos : Pos := ⟨1, 1⟩
  prev_last_char_pos : Pos := ⟨1, 1⟩
  eofed : Bool := false
  next_char : Option Int := none
  delayed_unread_chars : List DelayedUnreadChars := []
  consumed : List Int := []
deriving DecidableEq, Repr

/-- A freshly constructed scanner over the given stream contents. -/
def Scanner.fresh (input : List Nat) (mode : Mode) (lang : Lang) : Scanner :=
  { remaining := input, mode := mode, lang := lang }

/-- A failure raised through `Scanner::error`: the mode decides the channel
(`do_error`), `line`/`pos` are `last_char_pos` at the moment of failure, and
`msg` is the language-selected message text. -/
structure ScanError where
  mode : Mode
  lang : Lang
  line : Nat
  pos : Nat
  msg : String
deriving DecidableEq, Repr

/-- The full diagnostic line built by `Scanner::error`. -/
def ScanError.render (e : ScanError) : String :=
  match e.lang with
  | .EN => "Line " ++ toString e.line ++ ", position " ++ toString e.pos ++ ": " ++ e.msg
  | .PL => "Wiersz " ++ toString e.line ++ ", pozycja " ++ toString e.pos ++ ": " ++ e.msg

/-- `Scanner::error`: records `last_char_pos` and routes by mode. -/
def Scanner.error (s : Scanner) (msg : String) : ScanError :=
  ⟨s.mode, s.lang, s.last_char_pos.line, s.last_char_pos.pos, msg⟩

/-- `Scanner::getchar`: returns `some ch` when the C++ function returns `true`
(with the read byte), `none` when it returns `false` (EOF). -/
def Scanner.getchar (s : Scanner) : Option Int × Scanner :=
  if s.eofed then
    (none, s)
  else
    let (ch, s1) :=
      match s.next_char with
      | some c => (c, { s with next_char := none })
      | none =>
        match s.remaining with
        | [] => (-1, s)
        | b :: rest => ((b : Int), { s with remaining := rest })
    let s2 : Scanner :=
      { s1 with
        eofed := ch == -1
        prev_last_char_pos := s1.last_char_pos
        last_char_pos := s1.next_char_pos
        next_char_pos :=
          if ch == 10 then ⟨s1.next_char_pos.line + 1, 1⟩
          else ⟨s1.next_char_pos.line, s1.next_char_pos.pos + 1⟩
        consumed := s1.consumed ++ [ch] }
    (if ch == -1 then none else some ch, s2)

/-- `Scanner::ungetchar`. -/
def Scanner.ungetchar (s : Scanner) (ch : Int) : Scanner :=
  { s with
    next_char := some ch
    next_char_pos := s.last_char_pos
    last_char_pos := s.prev_last_char_pos
    eofed := false
    consumed := s.consumed.dropLast }

/-- Remaining reads before the stream is exhausted; used only as a
termination measure for read loops. -/
def Scanner.fuel (s : Scanner) : Nat :=
  s.remaining.length + (if s.next_char.isSome then 1 else 0)

theorem getchar_fuel {s : Scanner} {ch : Int} {s1 : Scanner}
    (h : s.getchar = (some ch, s1)) : s1.fuel < s.fuel := by
  unfold Scanner.getchar at h
  by_cases he : s.eofed
  · simp [he] at h
  · simp only [he, if_false, Bool.false_eq_true] at h
    cases hnc : s.next_char with
    | some c =>
      simp only [hnc] at h
      by_cases hc : c == -1
      · simp [hc] at h
      · simp only [hc, Bool.false_eq_true, if_false, Prod.mk.injEq] at h
        obtain ⟨h1, h2⟩ := h
        subst h2
        simp [Scanner.fuel, hnc]
    | none =>
      simp only [hnc] at h
      cases hr : s.remaining with
      | nil => simp [hr] at h
      | cons b rest =>
        simp only [hr] at h
        by_cases hb : (b : Int) == -1
        · simp [hb] at h
        · simp only [hb, Bool.false_eq_true, if_false, Prod.mk.injEq] at h
          obtain ⟨h1, h2⟩ := h
          subst h2
          simp [Scanner.fuel, hr, hnc]

/-- A single quote character, as a string. -/
def squote : String := String.singleton (Char.ofNat 39)

/-- One lowercase hexadecimal digit. -/
def hex_digit (n : Nat) : Char :=
  Char.ofNat (if n < 10 then 48 + n else 87 + n)

/-- `Scanner::char_description`. -/
def char_description (ch : Int) : String :=
  if isgraph ch then squote ++ String.singleton (Char.ofNat ch.toNat) ++ squote
  else if ch == 32 then squote ++ " " ++ squote
  else if ch == 10 then squote ++ "\\n" ++ squote
  else if ch == 13 then squote ++ "\\r" ++ squote
  else if ch == 9 then squote ++ "\\t" ++ squote
  else if ch == 0 then squote ++ "\\0" ++ squote
  else
    squote ++ "\\x" ++ String.singleton (hex_digit (ch.toNat / 16))
      ++ String.singleton (hex_digit (ch.toNat % 16)) ++ squote

/-- Message pattern "Read <got>, expected <want>" in the two languages. -/
def msg_read_expected (lang : Lang) (got want : String) : String :=
  match lang with
  | .EN => "Read " ++ got ++ ", expected " ++ want
  | .PL => "Wczytano " ++ got ++ ", oczekiwano " ++ want

/-- Message pattern "Read EOF, expected <want>". -/
def msg_read_eof_expected (lang : Lang) (want : String) : String :=
  match lang with
  | .EN => "Read EOF, expected " ++ want
  | .PL => "Wczytano EOF, oczekiwano " ++ want

/-- `read_eof_expected_a_string` message table. -/
def read_eof_expected_a_string (lang : Lang) : String :=
  match lang with
  | .EN => "Read EOF, expected a string"
  | .PL => "Wczytano EOF, oczekiwano napisu"

/-- `too_long_string` message table. -/
def too_long_string (lang : Lang) : String :=
  match lang with
  | .EN => "Too long string"
  | .PL => "Zbyt dlugi napis"

/-- `read_eof_expected_a_number` message table. -/
def read_eof_expected_a_number (lang : Lang) : String :=
  match lang with
  | .EN => "Read EOF, expected a number"
  | .PL => "Wczytano EOF, oczekiwano liczby"

/-- `read_minus_expected_a_positive_number` message table. -/
def read_minus_expected_a_positive_number (lang : Lang) : String :=
  match lang with
  | .EN => "Read " ++ squote ++ "-" ++ squote ++ ", expected a non-negative number"
  | .PL => "Wczytano " ++ squote ++ "-" ++ squote ++ ", oczekiwano nieujemnej liczby"

/-- `integer_value_out_of_range` message table. -/
def integer_value_out_of_range (lang : Lang) : String :=
  match lang with
  | .EN => "Integer value out of range"
  | .PL => "Liczba calkowita spoza zakresu"

/-- `real_number_value_out_of_range` message table. -/
def real_number_value_out_of_range (lang : Lang) : String :=
  match lang with
  | .EN => "Real number value out of range"
  | .PL => "Liczba rzeczywista spoza zakresu"

/-- The "a string" piece of the mismatch message of `operator>>(Str)`. -/
def want_a_string (lang : Lang) : String :=
  match lang with
  | .EN => "a string"
  | .PL => "napisu"

/-- The "a number" piece of the mismatch message of `scan_integer`. -/
def want_a_number (lang : Lang) : String :=
  match lang with
  | .EN => "a number"
  | .PL => "liczby"

/-- The inner loop of `read_delayed_unread_chars` for a `NEWLINE` tag: read a
newline, skipping non-newline whitespace before it. -/
def newline_tag_loop (s : Scanner) : Except ScanError Scanner :=
  match h : s.getchar with
  | (none, s1) =>
    .error (s1.error (msg_read_eof_expected s1.lang (squote ++ "\\n" ++ squote)))
  | (some ch, s1) =>
    if ch == 10 then .ok s1
    else if isspace ch then newline_tag_loop s1
    else
      .error (s1.error (msg_read_expected s1.lang (char_description ch) (squote ++ "\\n" ++ squote)))
termination_by s.fuel
decreasing_by exact getchar_fuel h

/-- The loop of `Scanner::read_delayed_unread_chars` over the queued tags.
The `TestInput` branches are unreachable in the source (`std::terminate`)
and are modelled as errors. -/
def read_delayed_go (s : Scanner) : List DelayedUnreadChars → Except ScanError Scanner
  | [] => .ok s
  | .WHITESPACE :: rest =>
    match s.mode with
    | .TestInput => .error (s.error "std::terminate")
    | _ =>
      match s.getchar with
      | (none, s1) =>
        .error (s1.error (msg_read_eof_expected s1.lang (squote ++ " " ++ squote)))
      | (some ch, s1) =>
        if !(isspace ch) || ch == 10 then
          .error (s1.error (msg_read_expected s1.lang (char_description ch) (squote ++ " " ++ squote)))
        else read_delayed_go s1 rest
  | .NEWLINE :: rest =>
    match s.mode with
    | .TestInput => .error (s.error "std::terminate")
    | _ =>
      match newline_tag_loop s with
      | .error e => .error e
      | .ok s1 => read_delayed_go s1 rest

/-- `Scanner::read_delayed_unread_chars`. -/
def Scanner.read_delayed_unread_chars (s : Scanner) : Except ScanError Scanner :=
  match read_delayed_go s s.delayed_unread_chars with
  | .error e => .error e
  | .ok s1 => .ok { s1 with delayed_unread_chars := [] }

/-- The skip loop of `operator>>(IgnoreWsType)`: consume non-newline
whitespace, then push the stopping character (or EOF) back. -/
def ignore_ws_loop (s : Scanner) : Scanner :=
  match h : s.getchar with
  | (none, s1) => s1.ungetchar (-1)
  | (some ch, s1) =>
    if ch == 10 || !(isspace ch) then s1.ungetchar ch
    else ignore_ws_loop s1
termination_by s.fuel
decreasing_by exact getchar_fuel h

/-- `Scanner::operator>>(IgnoreWsType)`. -/
def Scanner.ignoreWs (s : Scanner) : Except ScanError Scanner := do
  let s1 ← s.read_delayed_unread_chars
  .ok (ignore_ws_loop s1)

/-- The part of `operator>>(const char&)` after the initial mode switch. -/
def matchChar_rest (s : Scanner) (c : Int) : Except ScanError Scanner := do
  let s1 ← s.read_delayed_unread_chars
  let s2 ← (match s1.mode with
    | .UserOutput | .Lax => s1.ignoreWs
    | .TestInput => Except.ok s1)
  match s2.getchar with
  | (none, s3) => Except.error (s3.error (msg_read_eof_expected s3.lang (char_description c)))
  | (some ch, s3) =>
    if ch == c then Except.ok s3
    else Except.error (s3.error (msg_read_expected s3.lang (char_description ch) (char_description c)))

/-- `Scanner::operator>>(const char&)`: in lenient modes a whitespace
argument only enqueues a deferred obligation. -/
def Scanner.matchChar (s : Scanner) (c : Int) : Except ScanError Scanner :=
  match s.mode with
  | .UserOutput | .Lax =>
    if isspace c then
      .ok { s with delayed_unread_chars := s.delayed_unread_chars ++
              [if c == 10 then DelayedUnreadChars.NEWLINE else DelayedUnreadChars.WHITESPACE] }
    else matchChar_rest s c
  | .TestInput => matchChar_rest s c

/-- The whitespace-skipping loop of `operator>>(EofType)` in lenient modes;
`true` means the function returned early because EOF was reached. -/
def eof_skip_loop (s : Scanner) : Bool × Scanner :=
  match h : s.getchar with
  | (none, s1) => (true, s1)
  | (some ch, s1) =>
    if !(isspace ch) then (false, s1.ungetchar ch)
    else eof_skip_loop s1
termination_by s.fuel
decreasing_by exact getchar_fuel h

/-- `Scanner::operator>>(EofType)`. -/
def Scanner.matchEof (s : Scanner) : Except ScanError Scanner :=
  let (done, s1) :=
    match s.mode with
    | .UserOutput | .Lax => eof_skip_loop { s with delayed_unread_chars := [] }
    | .TestInput => (false, s)
  if done then .ok s1
  else
    match s1.getchar with
    | (some ch, s2) =>
      .error (s2.error (msg_read_expected s2.lang (char_description ch) "EOF"))
    | (none, s2) => .ok s2

/-- `Scanner::operator>>(NlType)`. -/
def Scanner.matchNl (s : Scanner) : Except ScanError Scanner :=
  s.matchChar 10

/-- The copy loop of `operator>>(Line)`. -/
def read_line_loop (acc : List Nat) (s : Scanner) : List Nat × Scanner :=
  match h : s.getchar with
  | (none, s1) => (acc, s1.ungetchar (-1))
  | (some ch, s1) =>
    if ch == 10 then (acc, s1.ungetchar ch)
    else read_line_loop (acc ++ [ch.toNat]) s1
termination_by s.fuel
decreasing_by exact getchar_fuel h

/-- `Scanner::operator>>(Line)`: `max_size` is taken (as in the source, where
`Line::max_size` exists) but never consulted. -/
def Scanner.readLine (s : Scanner) (max_size : Nat) : Except ScanError (List Nat × Scanner) := do
  let s1 ← s.read_delayed_unread_chars
  .ok (read_line_loop [] s1)

/-- The accumulation loop of `operator>>(Str)`: `ch` is the character already
read and about to be appended. -/
def read_str_loop (max_size : Nat) (var : List Nat) (ch : Int) (s : Scanner) :
    Except ScanError (List Nat × Scanner) :=
  let var1 := var ++ [ch.toNat]
  if var1.length > max_size then .error (s.error (too_long_string s.lang))
  else
    match h : s.getchar with
    | (none, s1) => .ok (var1, s1.ungetchar (-1))
    | (some ch2, s1) =>
      if isspace ch2 then .ok (var1, s1.ungetchar ch2)
      else read_str_loop max_size var1 ch2 s1
termination_by s.fuel
decreasing_by exact getchar_fuel h

/-- `Scanner::operator>>(Str)`. -/
def Scanner.readStr (s : Scanner) (max_size : Nat) : Except ScanError (List Nat × Scanner) := do
  let s1 ← s.read_delayed_unread_chars
  let s2 ← (match s1.mode with
    | .UserOutput | .Lax => s1.ignoreWs
    | .TestInput => Except.ok s1)
  match s2.getchar with
  | (none, s3) => Except.error (s3.error (read_eof_expected_a_string s3.lang))
  | (some ch, s3) =>
    if isspace ch then
      Except.error (s3.error (msg_read_expected s3.lang (char_description ch) (want_a_string s3.lang)))
    else read_str_loop max_size [] ch s3

/-- The digit loop of `Scanner::scan_integer` for a machine type with value
range `[tmin, tmax]`; `__builtin_mul_overflow` and friends are modelled as
range checks on the mathematical result. -/
def scan_integer_loop (tmin tmax : Int) (minus : Bool) (val : Int) (s : Scanner) :
    Except ScanError (Int × Scanner) :=
  match h : s.getchar with
  | (none, s1) => .ok (val, s1.ungetchar (-1))
  | (some ch, s1) =>
    if !(isdigit ch) then .ok (val, s1.ungetchar ch)
    else
      let v1 := val * 10
      if v1 < tmin ∨ tmax < v1 then .error (s1.error (integer_value_out_of_range s1.lang))
      else if !minus then
        let v2 := v1 + (ch - 48)
        if v2 < tmin ∨ tmax < v2 then .error (s1.error (integer_value_out_of_range s1.lang))
        else scan_integer_loop tmin tmax minus v2 s1
      else
        let v2 := v1 - (ch - 48)
        if v2 < tmin ∨ tmax < v2 then .error (s1.error (integer_value_out_of_range s1.lang))
        else scan_integer_loop tmin tmax minus v2 s1
termination_by s.fuel
decreasing_by all_goals exact getchar_fuel h

/-- The first-digit check and value seeding of `Scanner::scan_integer`. -/
def scan_integer_digits (tmin tmax : Int) (minus : Bool) (ch : Int) (s : Scanner) :
    Except ScanError (Int × Scanner) :=
  if ch < 48 ∨ 57 < ch then
    .error (s.error (msg_read_expected s.lang (char_description ch) (want_a_number s.lang)))
  else
    scan_integer_loop tmin tmax minus (if minus then 48 - ch else ch - 48) s

/-- `Scanner::scan_integer` for a machine type with range `[tmin, tmax]`;
`std::is_unsigned_v` holds exactly for the types whose range starts at 0. -/
def Scanner.scan_integer (s : Scanner) (tmin tmax : Int) : Except ScanError (Int × Scanner) :=
  match s.getchar with
  | (none, s1) => .error (s1.error (read_eof_expected_a_number s1.lang))
  | (some ch0, s1) =>
    if ch0 == 45 then
      if tmin == 0 then .error (s1.error (read_minus_expected_a_positive_number s1.lang))
      else
        match s1.getchar with
        | (none, s2) => .error (s2.error (read_eof_expected_a_number s2.lang))
        | (some ch, s2) => scan_integer_digits tmin tmax true ch s2
    else scan_integer_digits tmin tmax false ch0 s1

/-- `Scanner::operator>>(Num<T>)` for an integral `T` with machine range
`[tmin, tmax]` and requested bounds `[lo, hi]`. -/
def Scanner.readNum (s : Scanner) (tmin tmax lo hi : Int) : Except ScanError (Int × Scanner) := do
  let s1 ← s.read_delayed_unread_chars
  let s2 ← (match s1.mode with
    | .UserOutput | .Lax => s1.ignoreWs
    | .TestInput => Except.ok s1)
  match s2.scan_integer tmin tmax with
  | .error e => .error e
  | .ok (v, s3) =>
    if v < lo ∨ hi < v then .error (s3.error (integer_value_out_of_range s3.lang))
    else .ok (v, s3)

/-- `Scanner::do_destructor_checks`. -/
def Scanner.do_destructor_checks (s : Scanner) : Except ScanError Scanner :=
  match s.mode with
  | .UserOutput | .TestInput => s.matchEof
  | .Lax => .ok s

/-- The state of `oi::checker_verdict`. -/
structure CheckerVerdict where
  partial_score : Option Int := none
  partial_score_msg : String := ""
deriving DecidableEq, Repr

/-- `CheckerVerdict::set_partial_score`; the variadic message pack is
modelled as the list of the streamed message fragments. -/
def CheckerVerdict.set_partial_score (cv : CheckerVerdict) (score : Int) (msgs : List String) :
    CheckerVerdict :=
  { cv with partial_score := some score, partial_score_msg := String.join msgs }

/-- A process termination: exit code plus everything printed to stdout. -/
structure ProcessExit where
  exit_code : Nat
  out : String
deriving DecidableEq, Repr

/-- `CheckerVerdict::exit_wrong`; the separator is printed exactly when the
stored partial message is nonempty and the argument pack is nonempty
(`sizeof...(msg) != 0`). -/
def CheckerVerdict.exit_wrong (cv : CheckerVerdict) (msgs : List String) : ProcessExit :=
  match cv.partial_score with
  | some ps =>
    ⟨0, "OK\n" ++ cv.partial_score_msg
        ++ (if cv.partial_score_msg ≠ "" ∧ msgs.length ≠ 0 then "; " else "")
        ++ String.join msgs ++ "\n" ++ toString ps ++ "\n"⟩
  | none => ⟨0, "WRONG\n" ++ String.join msgs ++ "\n0\n"⟩

/-- `do_error`: the channel a `Scanner::error` terminates through, by mode
(checker reject / Lax fatal / verifier reject). -/
def scan_error_exit (cv : CheckerVerdict) (e : ScanError) : ProcessExit :=
  match e.mode with
  | .UserOutput => cv.exit_wrong [e.render]
  | .Lax => ⟨4, "Lax scanner: " ++ e.render ++ "\n"⟩
  | .TestInput => ⟨1, e.render ++ "\n"⟩

/-- The loop in `CheckerVerdict::exit_ok` (and the `atexit` hook) over all
live scanners: the first failing destructor check aborts the process. -/
def run_destructor_checks : List Scanner → Option ScanError
  | [] => none
  | s :: rest =>
    match s.do_destructor_checks with
    | .error e => some e
    | .ok _ => run_destructor_checks rest

/-- `CheckerVerdict::exit_ok`, given the registry of live scanners. -/
def CheckerVerdict.exit_ok (cv : CheckerVerdict) (live : List Scanner) : ProcessExit :=
  match run_destructor_checks live with
  | some e => scan_error_exit cv e
  | none => ⟨0, "OK\n\n100\n"⟩

/-- `decltype(generator)::max() - decltype(generator)::min()` for
`std::mt19937_64`: the raw-draw range length. -/
def generator_range_len : Nat := 2 ^ 64 - 1

/-- The rejection loop of `Random::operator()` for an unsigned type of bit
width `w`; the raw 64-bit generator draws are supplied as a list. -/
def rand_unsigned_go (w range_len limit min : Nat) : List Nat → Option (Nat × List Nat)
  | [] => none
  | d :: rest =>
    if limit ≤ d then rand_unsigned_go w range_len limit min rest
    else some (((d % range_len) % 2 ^ w + min) % 2 ^ w, rest)

/-- `Random::operator()(min, max)` for an unsigned integral type of bit width
`w` (values live in `[0, 2^w)`; `uint_fast64_t` arithmetic is mod `2^64`). -/
def rand_unsigned (w : Nat) (min max : Nat) (draws : List Nat) : Option (Nat × List Nat) :=
  let range_len := (max - min + 1) % 2 ^ 64
  if range_len = 0 then
    match draws with
    | [] => none
    | d :: rest => some (d % 2 ^ w, rest)
  else
    let limit := generator_range_len - generator_range_len % range_len
    rand_unsigned_go w range_len limit min draws

/-- `static_cast` of an integer to the unsigned type of bit width `w`. -/
def to_unsigned (w : Nat) (x : Int) : Nat := (x % (2 ^ w : Int)).toNat

/-- `static_cast` of an unsigned value of width `w` back to the signed type
of the same width (two's complement). -/
def to_signed (w : Nat) (v : Nat) : Int :=
  if v < 2 ^ (w - 1) then (v : Int) else (v : Int) - 2 ^ w

/-- Unsigned subtraction modulo `2^w` (integer promotion then truncation). -/
def usub (w a b : Nat) : Nat := (a % 2 ^ w + 2 ^ w - b % 2 ^ w) % 2 ^ w

/-- `Random::operator()` for a signed integral type of bit width `w`: shift
`[min, max]` into the unsigned domain via casts, delegate, cast back. -/
def rand_signed (w : Nat) (min max : Int) (draws : List Nat) : Option (Int × List Nat) :=
  let tmin : Int := -(2 ^ (w - 1) : Int)
  let umin := usub w (to_unsigned w min) (to_unsigned w tmin)
  let umax := usub w (to_unsigned w max) (to_unsigned w tmin)
  match rand_unsigned w umin umax draws with
  | none => none
  | some (v, rest) => some (to_signed w ((v + to_unsigned w tmin) % 2 ^ w), rest)

/-- How many of the `2^64` possible raw draws an accepting single-draw call
maps to the value `r` (rejected draws map to nothing). -/
def accept_count (w min max r : Nat) : Nat :=
  ((Finset.range (2 ^ 64)).filter (fun d => rand_unsigned w min max [d] = some (r, []))).card

unseal newline_tag_loop ignore_ws_loop eof_skip_loop read_line_loop read_str_loop scan_integer_loop

/-- The position at which the next read would occur after the given trace of
reads (a newline advances the line, everything else the column). -/
def pos_after (consumed : List Int) : Pos :=
  consumed.foldl (fun p ch => if ch == 10 then ⟨p.line + 1, 1⟩ else ⟨p.line, p.pos + 1⟩) ⟨1, 1⟩

/-- `getchar` never changes the scanner's mode, language or obligation queue. -/
theorem getchar_preserves (s : Scanner) :
    s.getchar.2.mode = s.mode ∧ s.getchar.2.lang = s.lang ∧
    s.getchar.2.delayed_unread_chars = s.delayed_unread_chars := by
  unfold Scanner.getchar
  by_cases he : s.eofed
  · simp [he]
  · cases hnc : s.next_char with
    | some c => simp [he, hnc]
    | none =>
      cases hr : s.remaining with
      | nil => simp [he, hnc, hr]
      | cons b rest => simp [he, hnc, hr]

theorem natCast_beq_negone (b : Nat) : ((b : Int) == -1) = false := by
  have : (b : Int) ≠ -1 := by omega
  simp [this]

theorem natCast_beq_ten (b : Nat) : ((b : Int) == 10) = (b == 10) := by
  by_cases h : b = 10
  · simp [h]
  · have : (b : Int) ≠ 10 := by omega
    simp [h, this]

/-- `getchar` on a scanner with no pushback that still has stream content:
the head byte is consumed. -/
theorem getchar_clean_cons {s : Scanner} {b : Nat} {rest : List Nat}
    (hr : s.remaining = b :: rest) (hnc : s.next_char = none) (he : s.eofed = false) :
    s.getchar = (some (b : Int),
      { s with remaining := rest,
               eofed := false,
               prev_last_char_pos := s.last_char_pos,
               last_char_pos := s.next_char_pos,
               next_char_pos := if b == 10 then ⟨s.next_char_pos.line + 1, 1⟩
                                else ⟨s.next_char_pos.line, s.next_char_pos.pos + 1⟩,
               consumed := s.consumed ++ [(b : Int)] }) := by
  unfold Scanner.getchar
  by_cases hb : b = 10
  · simp [he, hnc, hr, natCast_beq_negone, natCast_beq_ten, hb]
  · simp [he, hnc, hr, natCast_beq_negone, natCast_beq_ten, hb]

/-- `getchar` on a scanner with no pushback and an exhausted stream: the EOF
marker is consumed and the position still advances by one column. -/
theorem getchar_clean_nil {s : Scanner} (hr : s.remaining = []) (hnc : s.next_char = none)
    (he : s.eofed = false) :
    s.getchar = (none,
      { s with eofed := true,
               prev_last_char_pos := s.last_char_pos,
               last_char_pos := s.next_char_pos,
               next_char_pos := ⟨s.next_char_pos.line, s.next_char_pos.pos + 1⟩,
               consumed := s.consumed ++ [-1] }) := by
  unfold Scanner.getchar
  simp [he, hnc, hr]

/-- The four-call literal sequence of C6. -/
def c6_run (s : Scanner) : Except ScanError Scanner := do
  let s1 ← s.matchChar 32
  let s2 ← s1.matchChar 9
  let s3 ← s2.matchChar 9
  s3.matchChar 120

/-- C6: in LenientOutput (UserOutput) mode the four-call literal sequence
' ', '\t', '\t', 'x' against the input " \t\fx" (bytes 32, 9, 12, 120)
succeeds, because any three non-newline whitespace bytes discharge the three
deferred whitespace obligations; in Strict (TestInput) mode the same sequence
against the same input fails: the third call reads '\f' and expected '\t'
literally, at line 1 position 3. -/
theorem c6_whitespace_collapsing :
    (∃ s' : Scanner, c6_run (Scanner.fresh [32, 9, 12, 120] Mode.UserOutput Lang.EN) = Except.ok s') ∧
    c6_run (Scanner.fresh [32, 9, 12, 120] Mode.TestInput Lang.EN) =
      Except.error ⟨Mode.TestInput, Lang.EN, 1, 3,
        msg_read_expected Lang.EN (char_description 12) (char_description 9)⟩ :=
  ⟨⟨_, rfl⟩, rfl⟩

/-- C1 (amended): `exit_wrong` always terminates the process with exit code 0.
With a stored partial score it prints `"OK\n<partial_msg><sep><msg>\n<score>\n"`
where the separator `"; "` appears exactly when the stored partial message is
nonempty AND `exit_wrong` received a nonempty argument pack (so a single empty
string argument still produces the separator); with no stored partial score it
prints `"WRONG\n<msg>\n0\n"`.  In particular `set_partial_score(42, "a")`
followed by `exit_wrong("b")` emits exactly `"OK\na; b\n42\n"` with exit 0. -/
theorem c1_exit_wrong_behaviour :
    (∀ (cv : CheckerVerdict) (score : Int) (pmsgs msgs : List String),
      ((cv.set_partial_score score pmsgs).exit_wrong msgs).exit_code = 0 ∧
      ((cv.set_partial_score score pmsgs).exit_wrong msgs).out =
        "OK\n" ++ String.join pmsgs ++
          (if String.join pmsgs ≠ "" ∧ msgs ≠ [] then "; " else "") ++
          String.join msgs ++ "\n" ++ toString score ++ "\n") ∧
    (∀ msgs : List String,
      (CheckerVerdict.exit_wrong {} msgs).exit_code = 0 ∧
      (CheckerVerdict.exit_wrong {} msgs).out = "WRONG\n" ++ String.join msgs ++ "\n0\n") ∧
    (CheckerVerdict.set_partial_score {} 42 ["a"]).exit_wrong ["b"] = ⟨0, "OK\na; b\n42\n"⟩ := by
  refine ⟨?_, ?_, by decide⟩
  · intro cv score pmsgs msgs
    constructor
    · rfl
    · by_cases h1 : String.join pmsgs = "" <;> by_cases h2 : msgs = [] <;>
        simp [CheckerVerdict.set_partial_score, CheckerVerdict.exit_wrong, h1, h2,
          List.length_eq_zero]
  · intro msgs
    exact ⟨rfl, rfl⟩

/-- C1 counterexample: the claim says the `"; "` separator is omitted whenever
the `exit_wrong` message is empty, but with stored partial message `"a"` and
`exit_wrong` called with the single (empty) message argument `""` the code
still prints the separator: the output is `"OK\na; \n42\n"`, not `"OK\na\n42\n"`. -/
theorem c1_empty_message_separator_counterexample :
    ((CheckerVerdict.set_partial_score {} 42 ["a"]).exit_wrong [""]).out = "OK\na; \n42\n" ∧
    ¬ ((CheckerVerdict.set_partial_score {} 42 ["a"]).exit_wrong [""]).out = "OK\na\n42\n" := by
  decide

/-- C2: in TestInput and UserOutput modes the destructor check is exactly the
end-of-stream match; the success verdict `exit_ok` runs the destructor checks
of every live scanner and propagates the first failure; and a Strict
(TestInput) scanner whose next read yields an unread non-whitespace byte fails
its destructor check with a "expected EOF" message, terminating with exit
code 1 through the verifier channel. -/
theorem c2_destructor_eof_check :
    (∀ s : Scanner, s.mode = Mode.TestInput ∨ s.mode = Mode.UserOutput →
      s.do_destructor_checks = s.matchEof) ∧
    (∀ (cv : CheckerVerdict) (s : Scanner) (e : ScanError),
      s.do_destructor_checks = Except.error e → cv.exit_ok [s] = scan_error_exit cv e) ∧
    (∀ (s s1 : Scanner) (ch : Int) (cv : CheckerVerdict),
      s.mode = Mode.TestInput → s.lang = Lang.EN →
      s.getchar = (some ch, s1) → isspace ch = false →
      ∃ e : ScanError,
        s.do_destructor_checks = Except.error e ∧
        e.msg = "Read " ++ char_description ch ++ ", expected EOF" ∧
        (scan_error_exit cv e).exit_code = 1) := by
  refine ⟨?_, ?_, ?_⟩
  · intro s h
    rcases h with h | h <;> simp [Scanner.do_destructor_checks, h]
  · intro cv s e h
    simp [CheckerVerdict.exit_ok, run_destructor_checks, h]
  · intro s s1 ch cv hm hl hg hsp
    have hpres := getchar_preserves s
    rw [hg] at hpres
    have hlang : s1.lang = Lang.EN := hpres.2.1.trans hl
    have hmode : s1.mode = Mode.TestInput := hpres.1.trans hm
    refine ⟨s1.error (msg_read_expected s1.lang (char_description ch) "EOF"), ?_, ?_, ?_⟩
    · simp [Scanner.do_destructor_checks, Scanner.matchEof, hm, hg]
    · have hcat : (", expected " ++ "EOF" : String) = ", expected EOF" := rfl
      simp only [Scanner.error, msg_read_expected, hlang, String.append_assoc, hcat]
    · simp [scan_error_exit, Scanner.error, hmode]

/-- Witness for C2: a Strict scanner holding the unread byte 'x' fails its
destructor check at exit code 1 with the "expected EOF" message. -/
theorem c2_destructor_eof_check_witness :
    ∃ e : ScanError,
      (Scanner.fresh [120] Mode.TestInput Lang.EN).do_destructor_checks = Except.error e ∧
      e.msg = "Read " ++ char_description 120 ++ ", expected EOF" ∧
      (scan_error_exit {} e).exit_code = 1 :=
  c2_destructor_eof_check.2.2 (Scanner.fresh [120] Mode.TestInput Lang.EN) _ 120 {}
    rfl rfl rfl rfl

/-- The run of C10: match 'x', then a newline, then end of stream, against
the input "x" (no trailing newline). -/
def c10_run : Except ScanError Scanner := do
  let s1 ← (Scanner.fresh [120] Mode.UserOutput Lang.EN).matchChar 120
  let s2 ← s1.matchNl
  s2.matchEof

/-- C10: in the lenient modes `operator>>(EofType)` first discards every
pending deferred whitespace/newline obligation without enforcing it (the
result does not depend on the queue at all), so a required newline
immediately before end of stream is never actually checked: matching 'x',
then a newline, then end of stream succeeds on the input "x". -/
theorem c10_eof_discards_obligations :
    (∀ (s : Scanner) (q : List DelayedUnreadChars),
      s.mode = Mode.UserOutput ∨ s.mode = Mode.Lax →
      Scanner.matchEof { s with delayed_unread_chars := q } = s.matchEof) ∧
    (∃ s' : Scanner, c10_run = Except.ok s' ∧ s'.eofed = true) := by
  constructor
  · intro s q h
    rcases h with h | h <;> simp [Scanner.matchEof, h]
  · exact ⟨_, rfl, rfl⟩

/-- Witness for C10 at a lenient scanner with a pending NEWLINE obligation. -/
theorem c10_eof_discards_obligations_witness :
    Scanner.matchEof { Scanner.fresh [] Mode.UserOutput Lang.EN with
        delayed_unread_chars := [DelayedUnreadChars.NEWLINE] } =
      (Scanner.fresh [] Mode.UserOutput Lang.EN).matchEof :=
  c10_eof_discards_obligations.1 (Scanner.fresh [] Mode.UserOutput Lang.EN)
    [DelayedUnreadChars.NEWLINE] (Or.inl rfl)

/-- The run of the C5 counterexample: match 'a', 'b', 'c' against "ab". -/
def c5_run : Except ScanError Scanner := do
  let s1 ← (Scanner.fresh [97, 98] Mode.TestInput Lang.EN).matchChar 97
  let s2 ← s1.matchChar 98
  s2.matchChar 99

/-- C5 counterexample: matching 'a', 'b', 'c' against the input "ab" in
Strict mode fails on end of stream and the diagnostic names line 1 position 3
-- but the last byte actually consumed from the stream at that moment is 'b',
which was read at line 1 position 2.  EOF failures report the position one
past the last consumed byte, contradicting the claim. -/
theorem c5_eof_position_counterexample :
    c5_run = Except.error ⟨Mode.TestInput, Lang.EN, 1, 3,
      msg_read_eof_expected Lang.EN (char_description 99)⟩ ∧
    pos_after (List.dropLast [97, 98] : List Int) = (⟨1, 2⟩ : Pos) ∧
    ¬ pos_after (List.dropLast [97, 98] : List Int) = (⟨1, 3⟩ : Pos) := by
  refine ⟨rfl, by decide, by decide⟩

/-- C3 counterexample: for the unsigned 8-bit type the range `[0, 255]` spans
the type's full width, yet the call is not a single raw draw reinterpreted
into range: the raw draw `2^64 - 1` is rejected by the rejection-sampling
limit and the second draw 5 is consumed instead, giving `some (5, [])` rather
than `some ((2^64 - 1) % 2^8, [5])`. -/
theorem c3_full_width_single_draw_counterexample :
    rand_unsigned 8 0 255 [2 ^ 64 - 1, 5] = some (5, []) ∧
    ¬ rand_unsigned 8 0 255 [2 ^ 64 - 1, 5] = some ((2 ^ 64 - 1) % 2 ^ 8, [5]) := by
  refine ⟨by decide, by decide⟩

/-- The Line copy loop on a pushback-free, non-eofed scanner copies exactly
the bytes up to (excluding) the next newline or end of stream. -/
theorem read_line_loop_clean (l : List Nat) :
    ∀ (s : Scanner) (acc : List Nat),
      s.remaining = l → s.next_char = none → s.eofed = false →
      (read_line_loop acc s).1 = acc ++ l.takeWhile (fun b => !(b == 10)) := by
  induction l with
  | nil =>
    intro s acc hr hnc he
    rw [read_line_loop, getchar_clean_nil hr hnc he]
    simp
  | cons b rest ih =>
    intro s acc hr hnc he
    rw [read_line_loop, getchar_clean_cons hr hnc he]
    by_cases hb : b = 10
    · subst hb
      simp
    · have h10 : ((b : Int) == 10) = false := by
        have : (b : Int) ≠ 10 := by omega
        simp [this]
      have hbn : (b == 10) = false := by simp [hb]
      simp only [h10, hbn, Bool.false_eq_true, if_false, List.takeWhile_cons, Bool.not_false,
        Int.toNat_natCast, ite_true, ite_false]
      rw [show acc ++ (b :: List.takeWhile (fun x => !(x == 10)) rest)
            = (acc ++ [b]) ++ List.takeWhile (fun x => !(x == 10)) rest from by simp]
      exact ih _ (acc ++ [b]) rfl hnc rfl

/-- C8: `operator>>(Line)` never consults its capacity argument -- the result
is the same for every capacity -- and on a scanner with no pending obligations,
no pushback and an unexhausted stream it succeeds, copying verbatim exactly
the bytes before the next newline (or all remaining bytes when no newline
remains).  Asymmetric with `read_token`, it cannot fail on a long line. -/
theorem c8_read_line_cap_advisory :
    (∀ (s : Scanner) (cap cap' : Nat), s.readLine cap = s.readLine cap') ∧
    (∀ (s : Scanner) (cap : Nat),
      s.delayed_unread_chars = [] → s.next_char = none → s.eofed = false →
      ∃ s' : Scanner,
        s.readLine cap = Except.ok (s.remaining.takeWhile (fun b => !(b == 10)), s')) := by
  constructor
  · intro s cap cap'
    rfl
  · intro s cap hq hnc he
    refine ⟨(read_line_loop [] { s with delayed_unread_chars := [] }).2, ?_⟩
    have hstep : s.readLine cap =
        Except.ok (read_line_loop [] { s with delayed_unread_chars := [] }) := by
      unfold Scanner.readLine Scanner.read_delayed_unread_chars
      rw [hq]
      rfl
    rw [hstep]
    refine congrArg Except.ok (Prod.ext_iff.mpr ⟨?_, rfl⟩)
    have hmain := read_line_loop_clean s.remaining { s with delayed_unread_chars := [] } []
      rfl hnc he
    simpa using hmain

/-- Witness for C8 on input "a\nb" with capacity 0: the whole first line is
copied although it is longer than the capacity. -/
theorem c8_read_line_cap_advisory_witness :
    ∃ s' : Scanner,
      (Scanner.fresh [97, 10, 98] Mode.TestInput Lang.EN).readLine 0 =
        Except.ok (([97] : List Nat), s') :=
  c8_read_line_cap_advisory.2 (Scanner.fresh [97, 10, 98] Mode.TestInput Lang.EN) 0 rfl rfl rfl

theorem isspace_ten : isspace 10 = true := rfl

theorem nonspace_ne_ten {b : Nat} (h : isspace (b : Int) = false) : (b == 10) = false := by
  by_cases hb : b = 10
  · subst hb
    simp [isspace] at h
  · simp [hb]

/-- The Str accumulation loop fails with "too long string" at the position of
the `(max_size+1)`-th token character; `n` counts the reads still needed to
reach it from the current state. -/
theorem read_str_loop_too_long (n : Nat) :
    ∀ (s : Scanner) (var : List Nat) (ch : Int) (max_size : Nat),
      var.length + n = max_size →
      s.next_char = none → s.eofed = false →
      (∀ b ∈ s.remaining.take n, isspace (b : Int) = false) →
      n ≤ s.remaining.length →
      read_str_loop max_size var ch s =
        Except.error ⟨s.mode, s.lang,
          (match n with
            | 0 => s.last_char_pos
            | Nat.succ m => ⟨s.next_char_pos.line, s.next_char_pos.pos + m⟩ : Pos).line,
          (match n with
            | 0 => s.last_char_pos
            | Nat.succ m => ⟨s.next_char_pos.line, s.next_char_pos.pos + m⟩ : Pos).pos,
          too_long_string s.lang⟩ := by
  induction n with
  | zero =>
    intro s var ch max_size hlen hnc he htake hrem
    rw [read_str_loop]
    have hgt : (var ++ [ch.toNat]).length > max_size := by simp; omega
    rw [if_pos hgt]
    rfl
  | succ m ih =>
    intro s var ch max_size hlen hnc he htake hrem
    cases hr : s.remaining with
    | nil => rw [hr] at hrem; simp at hrem
    | cons b rest =>
      rw [hr] at htake hrem
      have hb : isspace (b : Int) = false := htake b (by simp)
      have hb10 : (b == 10) = false := nonspace_ne_ten hb
      rw [read_str_loop]
      have hng : ¬ (var ++ [ch.toNat]).length > max_size := by simp; omega
      rw [getchar_clean_cons hr hnc he]
      simp only [hng, if_false, hb, hb10, Bool.false_eq_true, ite_false]
      have ihx := ih
          { s with remaining := rest,
                   eofed := false,
                   prev_last_char_pos := s.last_char_pos,
                   last_char_pos := s.next_char_pos,
                   next_char_pos := ⟨s.next_char_pos.line, s.next_char_pos.pos + 1⟩,
                   consumed := s.consumed ++ [(b : Int)] }
          (var ++ [ch.toNat]) (b : Int) max_size (by simp; omega) hnc rfl
          (by intro x hx; exact htake x (by simp [hx])) (by simpa using hrem)
      rw [ihx]
      cases m with
      | zero => simp
      | succ k => simp [Nat.add_assoc, Nat.add_comm 1 k]

theorem except_bind_ok {ε α β : Type} (a : α) (f : α → Except ε β) :
    (Except.ok a : Except ε α) >>= f = f a := rfl

/-- Entry of `operator>>(Str)` on a Strict scanner with no pending
obligations whose next byte is non-whitespace: the byte is consumed and the
accumulation loop is entered. -/
theorem readStr_entry (s : Scanner) (cap : Nat) (b : Nat) (rest : List Nat)
    (hm : s.mode = Mode.TestInput) (hq : s.delayed_unread_chars = [])
    (hr : s.remaining = b :: rest) (hnc : s.next_char = none) (he : s.eofed = false)
    (hb : isspace (b : Int) = false) :
    s.readStr cap = read_str_loop cap [] (b : Int)
      { s with delayed_unread_chars := [],
               mode := Mode.TestInput,
               remaining := rest,
               eofed := false,
               prev_last_char_pos := s.last_char_pos,
               last_char_pos := s.next_char_pos,
               next_char_pos := if b == 10 then ⟨s.next_char_pos.line + 1, 1⟩
                                else ⟨s.next_char_pos.line, s.next_char_pos.pos + 1⟩,
               consumed := s.consumed ++ [(b : Int)] } := by
  unfold Scanner.readStr Scanner.read_delayed_unread_chars
  rw [hq]
  simp only [read_delayed_go, hm, except_bind_ok]
  rw [@getchar_clean_cons { s with delayed_unread_chars := [], mode := Mode.TestInput } b rest
    hr hnc he]
  simp only [hb, Bool.false_eq_true, ite_false]

/-- C7: `operator>>(Str)` (read_token) fails with "too long string" the
instant the accumulated token length exceeds the capacity: on a Strict
scanner over a stream whose first `cap+1` bytes are non-whitespace, the
failure is reported at line 1, position `cap+1` -- the position of the
`(cap+1)`-th token byte; in particular `read_token` with capacity 5 on
"abcefg efg" fails exactly when the 6th character would be appended, at
line 1 position 6, with the "Too long string" message. -/
theorem c7_too_long_string :
    (∀ (bs : List Nat) (cap : Nat) (lang : Lang),
      (∀ b ∈ bs.take (cap + 1), isspace (b : Int) = false) →
      cap + 1 ≤ bs.length →
      (Scanner.fresh bs Mode.TestInput lang).readStr cap =
        Except.error ⟨Mode.TestInput, lang, 1, cap + 1, too_long_string lang⟩) ∧
    (Scanner.fresh [97, 98, 99, 101, 102, 103, 32, 101, 102, 103] Mode.TestInput Lang.EN).readStr 5
      = Except.error ⟨Mode.TestInput, Lang.EN, 1, 6, too_long_string Lang.EN⟩ := by
  constructor
  · intro bs cap lang htake hlen
    cases bs with
    | nil => simp at hlen
    | cons b rest =>
      have hb : isspace (b : Int) = false := htake b (by simp)
      have hb10 : (b == 10) = false := nonspace_ne_ten hb
      rw [readStr_entry (Scanner.fresh (b :: rest) Mode.TestInput lang) cap b rest
        rfl rfl rfl rfl rfl hb, hb10]
      simp only [Scanner.fresh, Bool.false_eq_true, ite_false, List.nil_append]
      cases cap with
      | zero =>
        refine read_str_loop_too_long 0 _ [] (b : Int) 0 (by simp) rfl rfl ?_ ?_
        · intro x hx
          simp at hx
        · simp
      | succ m =>
        have hloop := read_str_loop_too_long (m + 1)
          ({ remaining := rest, mode := Mode.TestInput, lang := lang,
             next_char_pos := ⟨1, 2⟩, last_char_pos := ⟨1, 1⟩,
             prev_last_char_pos := ⟨1, 1⟩, eofed := false, next_char := none,
             delayed_unread_chars := [], consumed := [(b : Int)] } : Scanner)
          [] (b : Int) (m + 1) (by simp) rfl rfl
          (by
            intro x hx
            apply htake
            rw [List.take_succ_cons]
            exact List.mem_cons_of_mem b hx)
          (by simpa using hlen)
        rw [hloop]
        simp
        omega
  · rfl

/-- Witness for C7: capacity 1 over the two non-whitespace bytes "aa" fails
with "Too long string" at line 1 position 2. -/
theorem c7_too_long_string_witness :
    (Scanner.fresh [97, 97] Mode.TestInput Lang.EN).readStr 1 =
      Except.error ⟨Mode.TestInput, Lang.EN, 1, 2, too_long_string Lang.EN⟩ :=
  c7_too_long_string.1 [97, 97] 1 Lang.EN (by decide) (by decide)

/-- The value accumulated by the non-negative digit loop, starting from `val`. -/
def digits_val (val : Int) (ds : List Nat) : Int :=
  ds.foldl (fun v d => v * 10 + ((d : Int) - 48)) val

theorem digits_val_nil (val : Int) : digits_val val [] = val := rfl

theorem digits_val_cons (val : Int) (d : Nat) (ds : List Nat) :
    digits_val val (d :: ds) = digits_val (val * 10 + ((d : Int) - 48)) ds := rfl

/-- Accumulating digits over a nonnegative start can only grow the value. -/
theorem le_digits_val (ds : List Nat) :
    ∀ val : Int, 0 ≤ val → (∀ d ∈ ds, 48 ≤ d) → val ≤ digits_val val ds := by
  induction ds with
  | nil =>
    intro val h0 hd
    simp [digits_val_nil]
  | cons d tl ih =>
    intro val h0 hd
    rw [digits_val_cons]
    have hd48 : (48 : Int) ≤ (d : Nat) := by
      have := hd d (by simp)
      omega
    have hstep : val ≤ val * 10 + ((d : Int) - 48) := by omega
    have hnext : (0 : Int) ≤ val * 10 + ((d : Int) - 48) := by omega
    exact le_trans hstep (ih _ hnext (fun x hx => hd x (by simp [hx])))

theorem isdigit_natCast {d : Nat} (h1 : 48 ≤ d) (h2 : d ≤ 57) : isdigit (d : Int) = true := by
  simp [isdigit]
  omega

theorem not_isdigit_natCast {d : Nat} (h : isdigit (d : Int) = false) : d < 48 ∨ 57 < d := by
  simp [isdigit] at h
  omega

/-- Success of the digit loop (non-negative case): if every intermediate
value stays within the type range, the loop consumes exactly the digit run
and returns its value, pushing the terminating byte (or EOF) back. -/
theorem scan_integer_loop_ok (ds : List Nat) :
    ∀ (rest : List Nat) (s : Scanner) (val tmin tmax : Int),
      s.next_char = none → s.eofed = false →
      s.remaining = ds ++ rest →
      (∀ d ∈ ds, 48 ≤ d ∧ d ≤ 57) →
      (match rest with | [] => True | r :: _ => isdigit (r : Int) = false) →
      tmin ≤ 0 → 0 ≤ val →
      digits_val val ds ≤ tmax →
      ∃ s' : Scanner, scan_integer_loop tmin tmax false val s = Except.ok (digits_val val ds, s') := by
  induction ds with
  | nil =>
    intro rest s val tmin tmax hnc he hr hds hrest h0 hval hmax
    rw [digits_val_nil]
    cases rest with
    | nil =>
      rw [List.nil_append] at hr
      exact ⟨_, by rw [scan_integer_loop, getchar_clean_nil hr hnc he]⟩
    | cons r tl =>
      rw [List.nil_append] at hr
      have hrd : isdigit (r : Int) = false := hrest
      exact ⟨_, by
        rw [scan_integer_loop, getchar_clean_cons hr hnc he]
        simp only [hrd, Bool.not_false, ite_true]
        rfl⟩
  | cons d tl ih =>
    intro rest s val tmin tmax hnc he hr hds hrest h0 hval hmax
    have hr' : s.remaining = d :: (tl ++ rest) := by simpa using hr
    have hd48 : 48 ≤ d := (hds d (by simp)).1
    have hd57 : d ≤ 57 := (hds d (by simp)).2
    have hdig : isdigit (d : Int) = true := isdigit_natCast hd48 hd57
    have hv2nn : (0 : Int) ≤ val * 10 + ((d : Int) - 48) := by omega
    have hv2_le : val * 10 + ((d : Int) - 48) ≤ tmax := by
      have hle := le_digits_val tl (val * 10 + ((d : Int) - 48)) hv2nn
        (fun x hx => (hds x (by simp [hx])).1)
      rw [digits_val_cons] at hmax
      omega
    have hc1 : ¬ (val * 10 < tmin ∨ tmax < val * 10) := by omega
    have hc2 : ¬ (val * 10 + ((d : Int) - 48) < tmin ∨
        tmax < val * 10 + ((d : Int) - 48)) := by omega
    rw [digits_val_cons]
    rw [scan_integer_loop, getchar_clean_cons hr' hnc he]
    simp only [hdig, Bool.not_true, Bool.false_eq_true, ite_false, Bool.not_false, ite_true,
      if_neg hc1, if_neg hc2]
    refine ih rest _ (val * 10 + ((d : Int) - 48)) tmin tmax ?_ ?_ ?_ ?_ ?_ ?_ ?_ ?_
    · exact hnc
    · rfl
    · rfl
    · exact fun x hx => hds x (by simp [hx])
    · exact hrest
    · exact h0
    · exact hv2nn
    · rw [digits_val_cons] at hmax
      exact hmax

theorem digit_ne_ten {d : Nat} (h : 48 ≤ d) : (d == 10) = false := by
  simp
  omega

/-- Failure of the digit loop (non-negative case): processing the first digit
whose accumulated value leaves the type range raises "integer value out of
range" at that digit's position. -/
theorem scan_integer_loop_err (good : List Nat) :
    ∀ (b : Nat) (rest : List Nat) (s : Scanner) (val tmin tmax : Int),
      s.next_char = none → s.eofed = false →
      s.remaining = good ++ b :: rest →
      (∀ d ∈ good, 48 ≤ d ∧ d ≤ 57) → 48 ≤ b → b ≤ 57 →
      tmin ≤ 0 → 0 ≤ val →
      digits_val val good ≤ tmax →
      tmax < digits_val val (good ++ [b]) →
      scan_integer_loop tmin tmax false val s =
        Except.error ⟨s.mode, s.lang, s.next_char_pos.line,
          s.next_char_pos.pos + good.length, integer_value_out_of_range s.lang⟩ := by
  induction good with
  | nil =>
    intro b rest s val tmin tmax hnc he hr hds hb48 hb57 h0 hval hmax hover
    rw [List.nil_append] at hr
    have hdig : isdigit (b : Int) = true := isdigit_natCast hb48 hb57
    have hover' : tmax < val * 10 + ((b : Int) - 48) := by
      rw [show digits_val val ([] ++ [b]) = val * 10 + ((b : Int) - 48) from rfl] at hover
      exact hover
    rw [scan_integer_loop, getchar_clean_cons hr hnc he]
    simp only [hdig, Bool.not_true, Bool.false_eq_true, ite_false]
    by_cases hc1 : val * 10 < tmin ∨ tmax < val * 10
    · rw [if_pos hc1]
      simp [Scanner.error]
    · rw [if_neg hc1]
      simp only [Bool.not_false, ite_true]
      rw [if_pos (Or.inr hover' : val * 10 + ((b : Int) - 48) < tmin ∨
        tmax < val * 10 + ((b : Int) - 48))]
      simp [Scanner.error]
  | cons d tlg ih =>
    intro b rest s val tmin tmax hnc he hr hds hb48 hb57 h0 hval hmax hover
    have hr' : s.remaining = d :: (tlg ++ b :: rest) := by simpa using hr
    have hd48 : 48 ≤ d := (hds d (by simp)).1
    have hd57 : d ≤ 57 := (hds d (by simp)).2
    have hdig : isdigit (d : Int) = true := isdigit_natCast hd48 hd57
    have hd10 : (d == 10) = false := digit_ne_ten hd48
    have hv2nn : (0 : Int) ≤ val * 10 + ((d : Int) - 48) := by omega
    have hv2_le : val * 10 + ((d : Int) - 48) ≤ tmax := by
      have hle := le_digits_val tlg (val * 10 + ((d : Int) - 48)) hv2nn
        (fun x hx => (hds x (by simp [hx])).1)
      rw [digits_val_cons] at hmax
      omega
    have hc1 : ¬ (val * 10 < tmin ∨ tmax < val * 10) := by omega
    have hc2 : ¬ (val * 10 + ((d : Int) - 48) < tmin ∨
        tmax < val * 10 + ((d : Int) - 48)) := by omega
    rw [scan_integer_loop, getchar_clean_cons hr' hnc he]
    simp only [hdig, Bool.not_true, Bool.false_eq_true, ite_false, Bool.not_false, ite_true,
      if_neg hc1, if_neg hc2, hd10]
    have ihx := ih b rest
        { s with remaining := tlg ++ b :: rest,
                 eofed := false,
                 prev_last_char_pos := s.last_char_pos,
                 last_char_pos := s.next_char_pos,
                 next_char_pos := ⟨s.next_char_pos.line, s.next_char_pos.pos + 1⟩,
                 consumed := s.consumed ++ [(d : Int)] }
        (val * 10 + ((d : Int) - 48)) tmin tmax hnc rfl rfl
        (fun x hx => hds x (by simp [hx])) hb48 hb57 h0 hv2nn
        (by rw [digits_val_cons] at hmax; exact hmax)
        (by rw [List.cons_append, digits_val_cons] at hover; exact hover)
    rw [ihx]
    simp
    omega

/-- Entry of `operator>>(Num)` on a Strict scanner with no pending
obligations: obligations are resolved, no whitespace is skipped, and the
result is the integer scan followed by the bounds check. -/
theorem readNum_entry (s : Scanner) (tmin tmax lo hi : Int)
    (hm : s.mode = Mode.TestInput) (hq : s.delayed_unread_chars = []) :
    s.readNum tmin tmax lo hi =
      match Scanner.scan_integer
          { s with delayed_unread_chars := [], mode := Mode.TestInput } tmin tmax with
      | .error e => .error e
      | .ok (v, s3) =>
        if v < lo ∨ hi < v then Except.error (s3.error (integer_value_out_of_range s3.lang))
        else Except.ok (v, s3) := by
  unfold Scanner.readNum Scanner.read_delayed_unread_chars
  rw [hq]
  simp only [read_delayed_go, hm, except_bind_ok]

/-- Entry of `scan_integer` when the next byte is a decimal digit: the digit
is consumed and seeds the accumulation loop. -/
theorem scan_integer_entry (s : Scanner) (tmin tmax : Int) (d0 : Nat) (rest : List Nat)
    (hr : s.remaining = d0 :: rest) (hnc : s.next_char = none) (he : s.eofed = false)
    (h48 : 48 ≤ d0) (h57 : d0 ≤ 57) :
    s.scan_integer tmin tmax =
      scan_integer_loop tmin tmax false ((d0 : Int) - 48)
        { s with remaining := rest,
                 eofed := false,
                 prev_last_char_pos := s.last_char_pos,
                 last_char_pos := s.next_char_pos,
                 next_char_pos := if d0 == 10 then ⟨s.next_char_pos.line + 1, 1⟩
                                  else ⟨s.next_char_pos.line, s.next_char_pos.pos + 1⟩,
                 consumed := s.consumed ++ [(d0 : Int)] } := by
  have h45 : ((d0 : Int) == 45) = false := by
    have : (d0 : Int) ≠ 45 := by omega
    simp [this]
  have hno : ¬ ((d0 : Int) < 48 ∨ 57 < (d0 : Int)) := by omega
  unfold Scanner.scan_integer scan_integer_digits
  rw [getchar_clean_cons hr hnc he]
  simp only [h45, Bool.false_eq_true, ite_false, if_neg hno]

/-- C9: `operator>>(Num)` parses a run of decimal digits whose value lies
within the requested bounds (and fits the machine type) to exactly that
value, with no failure and no leading-zero restriction: on a fresh Strict
scanner over a digit run followed by a non-digit (or nothing), the parsed
value is the decimal value of the run; "2147483647" with int32 bounds
yields exactly 2147483647, and "007" parses as 7. -/
theorem c9_read_integer_roundtrip :
    (∀ (d0 : Nat) (ds rest : List Nat) (lang : Lang) (tmin tmax lo hi : Int),
      48 ≤ d0 → d0 ≤ 57 →
      (∀ d ∈ ds, 48 ≤ d ∧ d ≤ 57) →
      (match rest with | [] => True | r :: _ => isdigit (r : Int) = false) →
      tmin ≤ 0 → digits_val 0 (d0 :: ds) ≤ tmax →
      lo ≤ digits_val 0 (d0 :: ds) → digits_val 0 (d0 :: ds) ≤ hi →
      ∃ s' : Scanner,
        (Scanner.fresh ((d0 :: ds) ++ rest) Mode.TestInput lang).readNum tmin tmax lo hi =
          Except.ok (digits_val 0 (d0 :: ds), s')) ∧
    (∃ s' : Scanner,
      (Scanner.fresh [50, 49, 52, 55, 52, 56, 51, 54, 52, 55] Mode.TestInput Lang.EN).readNum
          (-(2 ^ 31)) (2 ^ 31 - 1) (-(2 ^ 31)) (2 ^ 31 - 1) = Except.ok (2147483647, s')) ∧
    (∃ s' : Scanner,
      (Scanner.fresh [48, 48, 55] Mode.TestInput Lang.EN).readNum
          (-(2 ^ 31)) (2 ^ 31 - 1) (-(2 ^ 31)) (2 ^ 31 - 1) = Except.ok (7, s')) := by
  refine ⟨?_, ⟨_, rfl⟩, ⟨_, rfl⟩⟩
  intro d0 ds rest lang tmin tmax lo hi h48 h57 hds hrest htmin htmax hlo hhi
  have hval0 : digits_val 0 (d0 :: ds) = digits_val ((d0 : Int) - 48) ds := by
    rw [digits_val_cons]
    norm_num
  rw [hval0] at htmax hlo hhi ⊢
  rw [readNum_entry _ tmin tmax lo hi rfl rfl]
  rw [scan_integer_entry _ tmin tmax d0 (ds ++ rest) rfl rfl rfl h48 h57]
  rw [digit_ne_ten h48]
  simp only [Scanner.fresh, Bool.false_eq_true, ite_false, List.nil_append]
  obtain ⟨s', hs'⟩ := scan_integer_loop_ok ds rest
    ({ remaining := ds ++ rest, mode := Mode.TestInput, lang := lang,
       next_char_pos := ⟨1, 2⟩, last_char_pos := ⟨1, 1⟩, prev_last_char_pos := ⟨1, 1⟩,
       eofed := false, next_char := none, delayed_unread_chars := [],
       consumed := [(d0 : Int)] } : Scanner)
    ((d0 : Int) - 48) tmin tmax rfl rfl rfl hds hrest htmin (by omega) htmax
  rw [hs']
  have hc : ¬ (digits_val ((d0 : Int) - 48) ds < lo ∨ hi < digits_val ((d0 : Int) - 48) ds) := by
    omega
  refine ⟨s', ?_⟩
  simp [hc]

/-- Witness for C9: "90x" with bounds wide enough parses to exactly 90. -/
theorem c9_read_integer_roundtrip_witness :
    ∃ s' : Scanner,
      (Scanner.fresh ((57 :: [48]) ++ [120]) Mode.TestInput Lang.EN).readNum
          (-(2 ^ 31)) (2 ^ 31 - 1) 0 100 = Except.ok (digits_val 0 (57 :: [48]), s') :=
  c9_read_integer_roundtrip.1 57 [48] [120] Lang.EN (-(2 ^ 31)) (2 ^ 31 - 1) 0 100
    (by decide) (by decide) (by decide) (by decide) (by decide) (by decide) (by decide)
    (by decide)

/-- C4: the first arithmetic overflow while accumulating digits fails
"integer value out of range" at the overflowing digit's byte position: on a
fresh Strict scanner over the digits `d0 :: good` (whose value still fits the
type range `[tmin, tmax]`) followed by a digit `b` that overflows, the
failure is reported at line 1, position `good.length + 2` -- the position of
`b`.  In particular `read_integer` over a signed 32-bit target on
"2147483648" with bounds `[INT32_MIN, INT32_MAX]` fails with "Integer value
out of range" reported at line 1, position 10. -/
theorem c4_overflow_position :
    (∀ (d0 : Nat) (good : List Nat) (b : Nat) (rest : List Nat) (lang : Lang)
        (tmin tmax lo hi : Int),
      48 ≤ d0 → d0 ≤ 57 → (∀ d ∈ good, 48 ≤ d ∧ d ≤ 57) → 48 ≤ b → b ≤ 57 →
      tmin ≤ 0 →
      digits_val 0 (d0 :: good) ≤ tmax →
      tmax < digits_val 0 ((d0 :: good) ++ [b]) →
      (Scanner.fresh ((d0 :: good) ++ b :: rest) Mode.TestInput lang).readNum tmin tmax lo hi =
        Except.error ⟨Mode.TestInput, lang, 1, good.length + 2,
          integer_value_out_of_range lang⟩) ∧
    ((Scanner.fresh [50, 49, 52, 55, 52, 56, 51, 54, 52, 56] Mode.TestInput Lang.EN).readNum
        (-(2 ^ 31)) (2 ^ 31 - 1) (-(2 ^ 31)) (2 ^ 31 - 1) =
      Except.error ⟨Mode.TestInput, Lang.EN, 1, 10, integer_value_out_of_range Lang.EN⟩) := by
  refine ⟨?_, rfl⟩
  intro d0 good b rest lang tmin tmax lo hi h48 h57 hgood hb48 hb57 htmin hmax hover
  have hval0 : digits_val 0 (d0 :: good) = digits_val ((d0 : Int) - 48) good := by
    rw [digits_val_cons]
    norm_num
  have hval0' : digits_val 0 ((d0 :: good) ++ [b]) =
      digits_val ((d0 : Int) - 48) (good ++ [b]) := by
    rw [List.cons_append, digits_val_cons]
    norm_num
  rw [hval0] at hmax
  rw [hval0'] at hover
  rw [readNum_entry _ tmin tmax lo hi rfl rfl]
  rw [scan_integer_entry _ tmin tmax d0 (good ++ b :: rest) rfl rfl rfl h48 h57]
  rw [digit_ne_ten h48]
  simp only [Scanner.fresh, Bool.false_eq_true, ite_false, List.nil_append]
  have hloop := scan_integer_loop_err good b rest
    ({ remaining := good ++ b :: rest, mode := Mode.TestInput, lang := lang,
       next_char_pos := ⟨1, 2⟩, last_char_pos := ⟨1, 1⟩, prev_last_char_pos := ⟨1, 1⟩,
       eofed := false, next_char := none, delayed_unread_chars := [],
       consumed := [(d0 : Int)] } : Scanner)
    ((d0 : Int) - 48) tmin tmax rfl rfl rfl hgood hb48 hb57 htmin (by omega) hmax hover
  rw [hloop]
  simp
  omega

/-- Witness for C4: on an unsigned 8-bit target (range `[0, 255]`), "999"
overflows at the third digit, reported at line 1 position 3. -/
theorem c4_overflow_position_witness :
    (Scanner.fresh ((57 :: [57]) ++ 57 :: []) Mode.TestInput Lang.EN).readNum 0 255 0 255 =
      Except.error ⟨Mode.TestInput, Lang.EN, 1, 3, integer_value_out_of_range Lang.EN⟩ :=
  c4_overflow_position.1 57 [57] 57 [] Lang.EN 0 255 0 255 (by decide) (by decide)
    (by decide) (by decide) (by decide) (by decide) (by decide) (by decide)

/-- The position bookkeeping invariant: `next_char_pos` is the position after
the net-consumed trace of reads, `last_char_pos` the position at which the
last consumed item (byte or EOF marker) was read, and -- except right after an
`ungetchar`, when it is stale and unread by the code until the next `getchar`
overwrites it (`ungetchar` asserts that no pushback is pending) --
`prev_last_char_pos` is one step earlier. -/
def PosInv (s : Scanner) : Prop :=
  s.next_char_pos = pos_after s.consumed ∧
  s.last_char_pos = pos_after s.consumed.dropLast ∧
  (s.next_char = none → s.prev_last_char_pos = pos_after s.consumed.dropLast.dropLast)

theorem pos_after_append_one (c : List Int) (ch : Int) :
    pos_after (c ++ [ch]) =
      (if ch == 10 then ⟨(pos_after c).line + 1, 1⟩
       else ⟨(pos_after c).line, (pos_after c).pos + 1⟩ : Pos) := by
  unfold pos_after
  rw [List.foldl_append]
  rfl

/-- C5 (amended): the diagnostic position is always `last_char_pos`, and the
scanner's position fields track the net-consumed trace exactly: the invariant
holds for a fresh scanner, is preserved by `getchar` and `ungetchar`, and a
failure raised through `Scanner::error` therefore names the position at which
the last net-consumed read occurred -- the position of the last consumed byte
for failures on a read byte, and the position one past the last consumed byte
(where EOF was encountered) for end-of-stream failures. -/
theorem c5_error_position_invariant :
    (∀ (input : List Nat) (mode : Mode) (lang : Lang),
      PosInv (Scanner.fresh input mode lang)) ∧
    (∀ (s : Scanner) (r : Option Int) (s1 : Scanner),
      s.getchar = (r, s1) → PosInv s → PosInv s1) ∧
    (∀ (s : Scanner) (ch : Int), s.next_char = none → PosInv s →
      PosInv (s.ungetchar ch)) ∧
    (∀ (s : Scanner) (msg : String), PosInv s →
      (s.error msg).line = (pos_after s.consumed.dropLast).line ∧
      (s.error msg).pos = (pos_after s.consumed.dropLast).pos) := by
  refine ⟨?_, ?_, ?_, ?_⟩
  · intro input mode lang
    exact ⟨rfl, rfl, fun _ => rfl⟩
  · intro s r s1 hg hinv
    obtain ⟨h1, h2, h3⟩ := hinv
    unfold Scanner.getchar at hg
    by_cases he : s.eofed
    · simp only [he, ite_true, if_true, Prod.mk.injEq] at hg
      obtain ⟨hg1, hg2⟩ := hg
      subst hg2
      exact ⟨h1, h2, h3⟩
    · simp only [he, Bool.false_eq_true, if_false] at hg
      cases hnc : s.next_char with
      | some c =>
        simp only [hnc, Prod.mk.injEq] at hg
        obtain ⟨hg1, hg2⟩ := hg
        subst hg2
        refine ⟨?_, ?_, ?_⟩
        · show (if c == 10 then (⟨s.next_char_pos.line + 1, 1⟩ : Pos)
              else ⟨s.next_char_pos.line, s.next_char_pos.pos + 1⟩) = _
          rw [pos_after_append_one, h1]
        · show s.next_char_pos = _
          rw [List.dropLast_concat, h1]
        · intro _
          show s.last_char_pos = _
          rw [List.dropLast_concat, h2]
      | none =>
        cases hr : s.remaining with
        | nil =>
          simp only [hnc, hr, Prod.mk.injEq] at hg
          obtain ⟨hg1, hg2⟩ := hg
          subst hg2
          refine ⟨?_, ?_, ?_⟩
          · show (if (-1 : Int) == 10 then (⟨s.next_char_pos.line + 1, 1⟩ : Pos)
                else ⟨s.next_char_pos.line, s.next_char_pos.pos + 1⟩) = _
            rw [pos_after_append_one, h1]
          · show s.next_char_pos = _
            rw [List.dropLast_concat, h1]
          · intro _
            show s.last_char_pos = _
            rw [List.dropLast_concat, h2]
        | cons b rest =>
          simp only [hnc, hr, Prod.mk.injEq] at hg
          obtain ⟨hg1, hg2⟩ := hg
          subst hg2
          refine ⟨?_, ?_, ?_⟩
          · show (if (b : Int) == 10 then (⟨s.next_char_pos.line + 1, 1⟩ : Pos)
                else ⟨s.next_char_pos.line, s.next_char_pos.pos + 1⟩) = _
            rw [pos_after_append_one, h1]
          · show s.next_char_pos = _
            rw [List.dropLast_concat, h1]
          · intro _
            show s.last_char_pos = _
            rw [List.dropLast_concat, h2]
  · intro s ch hnc hinv
    obtain ⟨h1, h2, h3⟩ := hinv
    refine ⟨h2, h3 hnc, ?_⟩
    intro hcon
    simp [Scanner.ungetchar] at hcon
  · intro s msg hinv
    exact ⟨congrArg Pos.line hinv.2.1, congrArg Pos.pos hinv.2.1⟩

/-- Witness for C5 (amended) at a fresh scanner that consumed one byte: the
error names the position of that byte. -/
theorem c5_error_position_invariant_witness :
    ((Scanner.fresh [] Mode.TestInput Lang.EN).error "x").line =
      (pos_after ((Scanner.fresh [] Mode.TestInput Lang.EN).consumed).dropLast).line ∧
    ((Scanner.fresh [] Mode.TestInput Lang.EN).error "x").pos =
      (pos_after ((Scanner.fresh [] Mode.TestInput Lang.EN).consumed).dropLast).pos :=
  c5_error_position_invariant.2.2.2 (Scanner.fresh [] Mode.TestInput Lang.EN) "x"
    ⟨rfl, rfl, fun _ => rfl⟩

theorem rand_unsigned_go_mem :
    ∀ (draws : List Nat) (w range_len limit min v : Nat) (rest : List Nat),
      rand_unsigned_go w range_len limit min draws = some (v, rest) →
      ∃ d : Nat, d < limit ∧ v = ((d % range_len) % 2 ^ w + min) % 2 ^ w := by
  intro draws
  induction draws with
  | nil =>
    intro w range_len limit min v rest h
    simp [rand_unsigned_go] at h
  | cons d ds ih =>
    intro w range_len limit min v rest h
    rw [rand_unsigned_go] at h
    by_cases hd : limit ≤ d
    · rw [if_pos hd] at h
      exact ih w range_len limit min v rest h
    · rw [if_neg hd] at h
      simp only [Option.some.injEq, Prod.mk.injEq] at h
      exact ⟨d, by omega, h.1.symm⟩

/-- Any value returned by the unsigned sampler lies in `[min, max]`. -/
theorem rand_unsigned_mem (draws : List Nat) (w min max v : Nat) (rest : List Nat)
    (hw : w ≤ 64) (hmm : min ≤ max) (hmax : max < 2 ^ w)
    (h : rand_unsigned w min max draws = some (v, rest)) :
    min ≤ v ∧ v ≤ max := by
  have hA : 0 < 2 ^ w := pow_pos (by norm_num) w
  have hAB : 2 ^ w ≤ 2 ^ 64 := Nat.pow_le_pow_right (by norm_num) hw
  have hB : (2 : Nat) ^ 64 = 18446744073709551616 := by norm_num
  rw [hB] at hAB
  unfold rand_unsigned at h
  rw [hB] at h
  by_cases h0 : (max - min + 1) % 18446744073709551616 = 0
  · rw [if_pos h0] at h
    cases draws with
    | nil => simp at h
    | cons d ds =>
      simp only [Option.some.injEq, Prod.mk.injEq] at h
      obtain ⟨hv, hrest⟩ := h
      have hvlt : d % 2 ^ w < 2 ^ w := Nat.mod_lt d hA
      omega
  · rw [if_neg h0] at h
    obtain ⟨d, hd, hv⟩ := rand_unsigned_go_mem _ _ _ _ _ _ _ h
    have hL : 0 < max - min + 1 := by omega
    have hLlt : max - min + 1 < 18446744073709551616 := by omega
    have hLid : (max - min + 1) % 18446744073709551616 = max - min + 1 :=
      Nat.mod_eq_of_lt hLlt
    rw [hLid] at hv
    have hm1 : d % (max - min + 1) < max - min + 1 := Nat.mod_lt d hL
    have hm2 : (d % (max - min + 1)) % 2 ^ w = d % (max - min + 1) :=
      Nat.mod_eq_of_lt (by omega)
    rw [hm2] at hv
    have hm3 : (d % (max - min + 1) + min) % 2 ^ w = d % (max - min + 1) + min :=
      Nat.mod_eq_of_lt (by omega)
    rw [hm3] at hv
    omega

/-- Exactly `q` of the numbers below `L * q` leave remainder `k` modulo `L`. -/
theorem card_range_mul_filter_mod (L q k : Nat) (hL : 0 < L) (hk : k < L) :
    ((Finset.range (L * q)).filter (fun d => d % L = k)).card = q := by
  have himg : (Finset.range (L * q)).filter (fun d => d % L = k)
      = (Finset.range q).image (fun j => j * L + k) := by
    ext d
    simp only [Finset.mem_filter, Finset.mem_range, Finset.mem_image]
    constructor
    · rintro ⟨hd, hmod⟩
      refine ⟨d / L, ?_, ?_⟩
      · rw [Nat.div_lt_iff_lt_mul hL]
        rw [Nat.mul_comm] at hd
        exact hd
      · have h1 := Nat.div_add_mod d L
        rw [Nat.mul_comm]
        omega
    · rintro ⟨j, hj, rfl⟩
      constructor
      · calc j * L + k < j * L + L := by omega
          _ = (j + 1) * L := by ring
          _ ≤ q * L := Nat.mul_le_mul_right L hj
          _ = L * q := Nat.mul_comm q L
      · rw [Nat.add_comm, Nat.add_mul_mod_self_right]
        exact Nat.mod_eq_of_lt hk
  rw [himg, Finset.card_image_of_injective _ ?_, Finset.card_range]
  intro a b hab
  simp only at hab
  have : a * L = b * L := by omega
  exact Nat.eq_of_mul_eq_mul_right hL this

theorem filter_range_lt_and (N M : Nat) (p : Nat → Prop) [DecidablePred p] (h : M ≤ N) :
    (Finset.range N).filter (fun d => d < M ∧ p d) = (Finset.range M).filter p := by
  ext d
  simp only [Finset.mem_filter, Finset.mem_range]
  constructor
  · rintro ⟨hN, hM, hp⟩
    exact ⟨hM, hp⟩
  · rintro ⟨hM, hp⟩
    exact ⟨lt_of_lt_of_le hM h, hM, hp⟩

/-- Closed form of a single-draw call in the rejection-sampling case. -/
theorem rand_unsigned_single (w min max d : Nat)
    (h0 : (max - min + 1) % 2 ^ 64 ≠ 0) :
    rand_unsigned w min max [d] =
      if generator_range_len - generator_range_len % ((max - min + 1) % 2 ^ 64) ≤ d then none
      else some (((d % ((max - min + 1) % 2 ^ 64)) % 2 ^ w + min) % 2 ^ w, []) := by
  unfold rand_unsigned rand_unsigned_go
  rw [if_neg h0]
  rfl

/-- In the rejection-sampling case every target value is hit by exactly
`generator_range_len / range_len` raw draws. -/
theorem accept_count_rejection (w min max r : Nat) (hw : w ≤ 64) (hmm : min ≤ max)
    (hmax : max < 2 ^ w) (hr1 : min ≤ r) (hr2 : r ≤ max)
    (h0 : (max - min + 1) % 2 ^ 64 ≠ 0) :
    accept_count w min max r = generator_range_len / (max - min + 1) := by
  have hA : 0 < 2 ^ w := pow_pos (by norm_num) w
  have hAB : 2 ^ w ≤ 2 ^ 64 := Nat.pow_le_pow_right (by norm_num) hw
  have hB : (2 : Nat) ^ 64 = 18446744073709551616 := by norm_num
  have hg : generator_range_len = 18446744073709551615 := by norm_num [generator_range_len]
  have hLpos : 0 < max - min + 1 := by omega
  have hLlt : max - min + 1 < 2 ^ 64 := by
    rw [hB]
    rw [hB] at h0
    omega
  have hLid : (max - min + 1) % 2 ^ 64 = max - min + 1 := Nat.mod_eq_of_lt hLlt
  have hlim : generator_range_len - generator_range_len % (max - min + 1)
      = (max - min + 1) * (generator_range_len / (max - min + 1)) := by
    have := Nat.mod_add_div generator_range_len (max - min + 1)
    omega
  have hlim_le : generator_range_len - generator_range_len % (max - min + 1) ≤ 2 ^ 64 := by
    rw [hg, hB]
    omega
  have hrk : r - min < max - min + 1 := by omega
  have hiff : ∀ d ∈ Finset.range (2 ^ 64),
      (rand_unsigned w min max [d] = some (r, [])) ↔
      (d < generator_range_len - generator_range_len % (max - min + 1) ∧
        d % (max - min + 1) = r - min) := by
    intro d _
    rw [rand_unsigned_single w min max d h0, hLid]
    by_cases hd : generator_range_len - generator_range_len % (max - min + 1) ≤ d
    · rw [if_pos hd]
      constructor
      · intro hcon
        exact absurd hcon (by simp)
      · intro hcon
        exact absurd hcon.1 (by omega)
    · rw [if_neg hd]
      have hm1 : d % (max - min + 1) < max - min + 1 := Nat.mod_lt d hLpos
      have hm2 : (d % (max - min + 1)) % 2 ^ w = d % (max - min + 1) :=
        Nat.mod_eq_of_lt (by omega)
      have hm3 : (d % (max - min + 1) + min) % 2 ^ w = d % (max - min + 1) + min :=
        Nat.mod_eq_of_lt (by omega)
      rw [hm2, hm3]
      simp only [Option.some.injEq, Prod.mk.injEq]
      constructor
      · rintro ⟨hv, -⟩
        exact ⟨by omega, by omega⟩
      · rintro ⟨-, hv⟩
        exact ⟨by omega, trivial⟩
  unfold accept_count
  rw [Finset.filter_congr hiff]
  rw [filter_range_lt_and (2 ^ 64)
    (generator_range_len - generator_range_len % (max - min + 1))
    (fun d => d % (max - min + 1) = r - min) hlim_le]
  rw [hlim]
  exact card_range_mul_filter_mod _ _ _ hLpos hrk

/-- In the full-64-bit-range case every target value is hit by exactly one
raw draw. -/
theorem accept_count_full (w min max r : Nat) (hw : w ≤ 64) (hmm : min ≤ max)
    (hmax : max < 2 ^ w) (hr1 : min ≤ r) (hr2 : r ≤ max)
    (h0 : (max - min + 1) % 2 ^ 64 = 0) :
    accept_count w min max r = 1 := by
  have hA : 0 < 2 ^ w := pow_pos (by norm_num) w
  have hAB : 2 ^ w ≤ 2 ^ 64 := Nat.pow_le_pow_right (by norm_num) hw
  have hB : (2 : Nat) ^ 64 = 18446744073709551616 := by norm_num
  have hiff : ∀ d ∈ Finset.range (2 ^ 64),
      (rand_unsigned w min max [d] = some (r, [])) ↔ (d = r) := by
    intro d hd
    rw [Finset.mem_range, hB] at hd
    unfold rand_unsigned
    rw [if_pos h0]
    simp only [Option.some.injEq, Prod.mk.injEq]
    have hdm : d % 2 ^ w = d := by
      apply Nat.mod_eq_of_lt
      rw [hB] at hAB h0
      omega
    rw [hdm]
    constructor
    · rintro ⟨hv, -⟩
      exact hv
    · intro hv
      exact ⟨hv, trivial⟩
  unfold accept_count
  rw [Finset.filter_congr hiff, Finset.filter_eq']
  rw [if_pos (by rw [Finset.mem_range, hB]; rw [hB] at hAB h0; omega)]
  exact Finset.card_singleton r

/-- `static_cast<UT>(x)` for a signed value in range, written as the
exceptional representative. -/
theorem to_unsigned_in_range (w : Nat) (x : Int) (hw : 1 ≤ w)
    (h1 : -(2 ^ (w - 1) : Int) ≤ x) (h2 : x ≤ 2 ^ (w - 1) - 1) :
    to_unsigned w x = if 0 ≤ x then x.toNat else (x + 2 ^ w).toNat := by
  have hQI : (2 : Int) ^ w = 2 * 2 ^ (w - 1) := by
    conv_lhs => rw [show w = (w - 1) + 1 from (Nat.succ_pred_eq_of_pos hw).symm]
    ring
  have hPI : (0 : Int) < 2 ^ (w - 1) := by positivity
  unfold to_unsigned
  by_cases hx : 0 ≤ x
  · rw [if_pos hx, Int.emod_eq_of_lt hx (by omega)]
  · rw [if_neg hx]
    have hrep : x % (2 : Int) ^ w = x + 2 ^ w := by
      rw [show x % (2 : Int) ^ w = (x + 2 ^ w * 1) % 2 ^ w from
        (Int.add_mul_emod_self_left x (2 ^ w) 1).symm, mul_one]
      exact Int.emod_eq_of_lt (by omega) (by omega)
    rw [hrep]

/-- The cast chain of the signed sampler shifts `[min, max]` by exactly
`2^(w-1)`. -/
theorem usub_to_unsigned_shift (w : Nat) (x : Int) (hw : 1 ≤ w)
    (h1 : -(2 ^ (w - 1) : Int) ≤ x) (h2 : x ≤ 2 ^ (w - 1) - 1) :
    usub w (to_unsigned w x) (to_unsigned w (-(2 ^ (w - 1) : Int))) =
      (x + 2 ^ (w - 1)).toNat := by
  have hQI : (2 : Int) ^ w = 2 * 2 ^ (w - 1) := by
    conv_lhs => rw [show w = (w - 1) + 1 from (Nat.succ_pred_eq_of_pos hw).symm]
    ring
  have hQN : (2 : Nat) ^ w = 2 * 2 ^ (w - 1) := by
    conv_lhs => rw [show w = (w - 1) + 1 from (Nat.succ_pred_eq_of_pos hw).symm]
    ring
  have hPI : (0 : Int) < 2 ^ (w - 1) := by positivity
  have hPN : 0 < (2 : Nat) ^ (w - 1) := pow_pos (by norm_num) _
  have hcastP : (((2 : Nat) ^ (w - 1) : Nat) : Int) = (2 : Int) ^ (w - 1) := by
    push_cast
    ring
  have hcastQ : (((2 : Nat) ^ w : Nat) : Int) = (2 : Int) ^ w := by
    push_cast
    ring
  have htmin : to_unsigned w (-(2 ^ (w - 1) : Int)) = 2 ^ (w - 1) := by
    rw [to_unsigned_in_range w _ hw (by omega) (by omega)]
    rw [if_neg (by omega)]
    omega
  rw [htmin, to_unsigned_in_range w x hw h1 h2]
  unfold usub
  have hbm : (2 : Nat) ^ (w - 1) % 2 ^ w = 2 ^ (w - 1) := Nat.mod_eq_of_lt (by omega)
  rw [hbm]
  by_cases hx : 0 ≤ x
  · rw [if_pos hx]
    have ham : x.toNat % 2 ^ w = x.toNat := Nat.mod_eq_of_lt (by omega)
    rw [ham]
    have e1 : x.toNat + 2 ^ w - 2 ^ (w - 1) = x.toNat + 2 ^ (w - 1) := by omega
    rw [e1, Nat.mod_eq_of_lt (by omega)]
    omega
  · rw [if_neg hx]
    have ham : (x + 2 ^ w).toNat % 2 ^ w = (x + 2 ^ w).toNat := Nat.mod_eq_of_lt (by omega)
    rw [ham]
    have e1 : (x + 2 ^ w).toNat + 2 ^ w - 2 ^ (w - 1) = (x + 2 ^ w).toNat + 2 ^ (w - 1) := by
      omega
    rw [e1, Nat.mod_eq_sub_mod (by omega)]
    have e2 : (x + 2 ^ w).toNat + 2 ^ (w - 1) - 2 ^ w = (x + 2 ^ (w - 1)).toNat := by omega
    rw [e2, Nat.mod_eq_of_lt (by omega)]

theorem to_unsigned_tmin (w : Nat) (hw : 1 ≤ w) :
    to_unsigned w (-(2 ^ (w - 1) : Int)) = 2 ^ (w - 1) := by
  have hQI : (2 : Int) ^ w = 2 * 2 ^ (w - 1) := by
    conv_lhs => rw [show w = (w - 1) + 1 from (Nat.succ_pred_eq_of_pos hw).symm]
    ring
  have hPI : (0 : Int) < 2 ^ (w - 1) := by positivity
  have hcastP : (((2 : Nat) ^ (w - 1) : Nat) : Int) = (2 : Int) ^ (w - 1) := by
    push_cast
    ring
  rw [to_unsigned_in_range w _ hw (by omega) (by omega), if_neg (by omega)]
  omega

/-- C3 (amended): for every unsigned bit width `w ≤ 64` and `min ≤ max < 2^w`,
the sampler only returns values in `[min, max]`; assuming uniform raw 64-bit
draws, every value of `[min, max]` is produced by exactly the same number of
raw draws (rejection sampling eliminates modulo bias); when `[min, max]`
spans the full width of the 64-bit generator word (`max - min + 1 = 2^64`,
possible only for a 64-bit type) the result is a single raw draw
reinterpreted into range; and for a signed target the range is shifted into
the unsigned domain by subtracting the type minimum, delegated, and shifted
back. -/
theorem c3_rand_bounds_uniform_signed :
    (∀ (draws : List Nat) (w min max v : Nat) (rest : List Nat),
      w ≤ 64 → min ≤ max → max < 2 ^ w →
      rand_unsigned w min max draws = some (v, rest) → min ≤ v ∧ v ≤ max) ∧
    (∀ w min max r : Nat, w ≤ 64 → min ≤ max → max < 2 ^ w → min ≤ r → r ≤ max →
      accept_count w min max r = accept_count w min max min) ∧
    (∀ (d : Nat) (rest : List Nat),
      rand_unsigned 64 0 (2 ^ 64 - 1) (d :: rest) = some (d % 2 ^ 64, rest)) ∧
    (∀ (w : Nat) (min max : Int) (draws : List Nat),
      1 ≤ w → w ≤ 64 → -(2 ^ (w - 1) : Int) ≤ min → min ≤ max → max ≤ 2 ^ (w - 1) - 1 →
      rand_signed w min max draws =
        Option.map (fun p => ((p.1 : Int) - 2 ^ (w - 1), p.2))
          (rand_unsigned w (min + 2 ^ (w - 1)).toNat (max + 2 ^ (w - 1)).toNat draws)) := by
  refine ⟨?_, ?_, ?_, ?_⟩
  · intro draws w min max v rest hw hmm hmax h
    exact rand_unsigned_mem draws w min max v rest hw hmm hmax h
  · intro w min max r hw hmm hmax hr1 hr2
    by_cases h0 : (max - min + 1) % 2 ^ 64 = 0
    · rw [accept_count_full w min max r hw hmm hmax hr1 hr2 h0,
        accept_count_full w min max min hw hmm hmax le_rfl hmm h0]
    · rw [accept_count_rejection w min max r hw hmm hmax hr1 hr2 h0,
        accept_count_rejection w min max min hw hmm hmax le_rfl hmm h0]
  · intro d rest
    unfold rand_unsigned
    rw [if_pos (by norm_num)]
  · intro w min max draws hw1 hw64 hmin hmm hmax
    have hQI : (2 : Int) ^ w = 2 * 2 ^ (w - 1) := by
      conv_lhs => rw [show w = (w - 1) + 1 from (Nat.succ_pred_eq_of_pos hw1).symm]
      ring
    have hQN : (2 : Nat) ^ w = 2 * 2 ^ (w - 1) := by
      conv_lhs => rw [show w = (w - 1) + 1 from (Nat.succ_pred_eq_of_pos hw1).symm]
      ring
    have hPI : (0 : Int) < 2 ^ (w - 1) := by positivity
    have hPN : 0 < (2 : Nat) ^ (w - 1) := pow_pos (by norm_num) _
    have hcastP : (((2 : Nat) ^ (w - 1) : Nat) : Int) = (2 : Int) ^ (w - 1) := by
      push_cast
      ring
    have hcastQ : (((2 : Nat) ^ w : Nat) : Int) = (2 : Int) ^ w := by
      push_cast
      ring
    have humin := usub_to_unsigned_shift w min hw1 hmin (by omega)
    have humax := usub_to_unsigned_shift w max hw1 (by omega) hmax
    simp only [rand_signed]
    rw [humin, humax, to_unsigned_tmin w hw1]
    cases h : rand_unsigned w (min + 2 ^ (w - 1)).toNat (max + 2 ^ (w - 1)).toNat draws with
    | none => rfl
    | some p =>
      obtain ⟨v, rest⟩ := p
      obtain ⟨hv1, hv2⟩ := rand_unsigned_mem draws w _ _ v rest hw64 (by omega) (by omega) h
      simp only [Option.map]
      have key : to_signed w ((v + 2 ^ (w - 1)) % 2 ^ w) = (v : Int) - 2 ^ (w - 1) := by
        by_cases hvP : v < 2 ^ (w - 1)
        · rw [Nat.mod_eq_of_lt (by omega)]
          unfold to_signed
          rw [if_neg (by omega)]
          omega
        · rw [Nat.mod_eq_sub_mod (by omega),
            show v + 2 ^ (w - 1) - 2 ^ w = v - 2 ^ (w - 1) from by omega,
            Nat.mod_eq_of_lt (by omega)]
          unfold to_signed
          rw [if_pos (by omega)]
          omega
      rw [key]

/-- Witness for C3 at `w = 8`, `[min, max] = [3, 10]`, a single accepted
draw 5: the result `5 % 8 + 3 = 8` lies in `[3, 10]`. -/
theorem c3_rand_bounds_uniform_signed_witness : 3 ≤ 8 ∧ 8 ≤ 10 :=
  c3_rand_bounds_uniform_signed.1 [5] 8 3 10 8 [] (by decide) (by decide) (by decide)
    (by decide)

end OI
